import Mathlib

/-!
Verification of the conversation message-tree core of a chat client.

The definitions below are shallow embeddings of:
 - `client/src/lib/messageTree.ts` (the version with the
   `includeThreadMessages` flag): `normalizeParentId`, `buildMessageTree`,
   `getSiblings`, `getActivePath`, `getThreadMessages`, and the sibling
   computation of `ChatWindow.tsx`;
 - the server route helpers of `routes.ts`: `getThreadChain`,
   `buildConversationPath`, `buildUserContent`, the MIME bucket predicates,
   and the streaming chat handler's persistence logic.

Modelling conventions:
 - JavaScript numbers that hold message ids are `Nat`; the normalized
   parent key (which can be the sentinel `-1`) is `Int`.
 - `Array.prototype.sort` with comparator `a.createdAt - b.createdAt` is a
   stable sort by `createdAt`; it is embedded as a stable insertion sort
   (any two stable sorts by the same key agree).
 - The unbounded `while` loops of the tree walks are embedded with an
   explicit fuel of `messages.length`; a JavaScript run that terminates
   never takes more steps than that (a longer walk revisits a node and
   therefore never terminates), so the embeddings agree with the source
   on every input where the source terminates.
 - `Buffer.from(data, "base64").toString("utf-8")` is modelled by an
   arbitrary decoding function passed as a parameter.
-/

/-- A row of the `messages` table, restricted to the fields read by the
verified functions (`conversationId`, `model` and `threadDraft` are never
inspected by them). `createdAt` is the epoch-millisecond timestamp. -/
structure Message where
  id : Nat
  parentMessageId : Option Nat
  role : String
  content : String
  isThreadMessage : Bool
  createdAt : Nat
  deriving DecidableEq, Repr

/-- A file attachment as carried by a chat request (`FileAttachment` in
`shared/schema.ts`): `data` is the base64 payload. -/
structure FileAttachment where
  filename : String
  originalName : String
  mimeType : String
  size : Nat
  data : String
  deriving DecidableEq, Repr

/-- `ROOT_PARENT_KEY = -1` from `messageTree.ts`. -/
def ROOT_PARENT_KEY : Int := -1

/-- `normalizeParentId` from `messageTree.ts`: `parentId ?? ROOT_PARENT_KEY`. -/
def normalizeParentId (parentId : Option Nat) : Int :=
  match parentId with
  | none => ROOT_PARENT_KEY
  | some p => (p : Int)

/-- Stable insertion of a message into a list, placing it after every
element with a strictly earlier `createdAt`.  Together with `sortByCreated`
this is the stable sort by `createdAt` performed by
`children.sort((a, b) => a.createdAt - b.createdAt)` in the source. -/
def insertByCreated (m : Message) : List Message → List Message
  | [] => [m]
  | b :: l => if b.createdAt < m.createdAt then b :: insertByCreated m l else m :: b :: l

/-- Stable sort by `createdAt` (see `insertByCreated`). -/
def sortByCreated : List Message → List Message
  | [] => []
  | a :: l => insertByCreated a (sortByCreated l)

/-- First element with minimal `createdAt` among `c :: cs` (ties resolved in
favour of the earlier list position): the "oldest-by-createdAt child" of the
spec's thread-mode walk. -/
def oldestIn (c : Message) : List Message → Message
  | [] => c
  | x :: xs => if x.createdAt < c.createdAt then oldestIn x xs else oldestIn c xs

/-- Client-side branch-selection state: the map from normalized parent key to
chosen sibling index (`branchSelections[key]`); `none` models an absent key
(JavaScript `undefined`). -/
abbrev BranchSelection : Type := Int → Option Int

/-- `buildMessageTree` from `messageTree.ts`, viewed as the function sending a
normalized parent key to that key's child group.  The source groups messages
by normalized parent (skipping thread messages unless
`includeThreadMessages`) in list order and then stably sorts each group by
`createdAt`; the group of a key nobody references is the empty list,
matching `tree.get(key) === undefined`. -/
def buildMessageTree (messages : List Message) (includeThreadMessages : Bool)
    (key : Int) : List Message :=
  sortByCreated (messages.filter (fun m =>
    (includeThreadMessages || !m.isThreadMessage)
      && (normalizeParentId m.parentMessageId == key)))

/-- `getSiblings` from `messageTree.ts`.  The source gives
`includeThreadMessages` the default value `false`; callers written without
the argument are modelled by passing `false` explicitly. -/
def getSiblings (messages : List Message) (message : Message)
    (includeThreadMessages : Bool) : List Message :=
  sortByCreated (messages.filter (fun m =>
    (includeThreadMessages || !m.isThreadMessage)
      && (normalizeParentId m.parentMessageId
            == normalizeParentId message.parentMessageId)))

/-- JavaScript `Array.prototype.findIndex`, returning `none` for `-1`. -/
def findIndexBy (p : Message → Bool) : List Message → Option Nat
  | [] => none
  | x :: xs => if p x then some 0 else (findIndexBy p xs).map (fun i => i + 1)

/-- The sibling computation of `ChatWindow.tsx`:
`siblings = getSiblings(allMessages, message)` (default arguments) and
`index = siblings.findIndex(s => s.id === message.id)`, replaced by `0`
when `findIndex` returns `-1`. -/
def siblingData (allMessages : List Message) (message : Message) :
    List Message × Nat :=
  let siblings := getSiblings allMessages message false
  (siblings, (findIndexBy (fun s => s.id == message.id) siblings).getD 0)

/-- `Math.min(Math.max(0, branchSelections[key] ?? 0), children.length - 1)`. -/
def clampIndex (sel : Option Int) (len : Nat) : Int :=
  min (max 0 (sel.getD 0)) ((len : Int) - 1)

/-- `children[clampedIndex]` for a nonempty child group `c :: cs`. -/
def selectChild (sel : Option Int) (c : Message) (cs : List Message) : Message :=
  (c :: cs).getD (clampIndex sel (c :: cs).length).toNat c

/-- `getActivePath`'s `while` loop, with explicit fuel (see the header note:
`messages.length` steps are enough on every input where the source loop
terminates). -/
def getActivePathAux (messages : List Message) (branchSelections : BranchSelection) :
    Nat → Int → List Message
  | 0, _ => []
  | fuel + 1, key =>
    match buildMessageTree messages false key with
    | [] => []
    | c :: cs =>
      let chosen := selectChild (branchSelections key) c cs
      chosen :: getActivePathAux messages branchSelections fuel (chosen.id : Int)

/-- `getActivePath` from `messageTree.ts`. -/
def getActivePath (messages : List Message) (branchSelections : BranchSelection) :
    List Message :=
  getActivePathAux messages branchSelections messages.length ROOT_PARENT_KEY

/-- The `while` loop of `getThreadMessages`: children of the current node in
the thread-inclusive tree, restricted to `isThreadMessage`, one selected by
the clamped branch index.  (The source breaks when `children` is empty and
again when `threadChildren` is empty; filtering first is equivalent.) -/
def threadWalkAux (messages : List Message) (branchSelections : BranchSelection) :
    Nat → Nat → List Message
  | 0, _ => []
  | fuel + 1, currentParentId =>
    match (buildMessageTree messages true (currentParentId : Int)).filter
        (fun c => c.isThreadMessage) with
    | [] => []
    | c :: cs =>
      let chosen := selectChild (branchSelections (currentParentId : Int)) c cs
      chosen :: threadWalkAux messages branchSelections fuel chosen.id

/-- `getThreadMessages` from `messageTree.ts`. -/
def getThreadMessages (messages : List Message) (rootMessageId : Nat)
    (branchSelections : BranchSelection) : List Message :=
  match messages.find? (fun m => m.id == rootMessageId) with
  | none => []
  | some rootMessage =>
      rootMessage :: threadWalkAux messages branchSelections messages.length rootMessageId

/-- The per-parent child group of the server's `childMap` in
`getThreadChain`: messages with non-null `parentMessageId` equal to
`parentId`, in list order. -/
def childrenOf (messages : List Message) (parentId : Nat) : List Message :=
  messages.filter (fun m =>
    match m.parentMessageId with
    | some p => p == parentId
    | none => false)

/-- The `while` loop of the server's `getThreadChain`, with explicit fuel. -/
def getThreadChainAux (messages : List Message) : Nat → Nat → List Message
  | 0, _ => []
  | fuel + 1, currentId =>
    match sortByCreated (childrenOf messages currentId) with
    | [] => []
    | firstChild :: _ => firstChild :: getThreadChainAux messages fuel firstChild.id

/-- `getThreadChain` from the server routes. -/
def getThreadChain (messages : List Message) (rootId : Nat) : List Message :=
  getThreadChainAux messages messages.length rootId

/-- The walk described by claim C1's wording, minus its thread-flag filter:
start at the root and at each step append the oldest-by-`createdAt` child of
the current node, stopping when the current node has no children.  Same fuel
convention as `getThreadChainAux`. -/
def specOldestWalkAux (messages : List Message) : Nat → Nat → List Message
  | 0, _ => []
  | fuel + 1, currentId =>
    match childrenOf messages currentId with
    | [] => []
    | c :: cs =>
      let o := oldestIn c cs
      o :: specOldestWalkAux messages fuel o.id

/-- Top-level form of `specOldestWalkAux`. -/
def specOldestChildWalk (messages : List Message) (rootId : Nat) : List Message :=
  specOldestWalkAux messages messages.length rootId

/-- The server's `messageMap.get(id)`: a JavaScript `Map` built by `set`-ing
every row keeps the last row for a duplicated id, hence the left fold. -/
def lookupById (messages : List Message) (targetId : Nat) : Option Message :=
  messages.foldl (fun acc m => if m.id == targetId then some m else acc) none

/-- The backward `while` loop of `buildConversationPath` (prepend the current
message, stop at a null parent or an unresolvable parent id), with explicit
fuel. -/
def walkBackAux (messages : List Message) : Nat → Message → List Message
  | 0, m => [m]
  | fuel + 1, m =>
    match m.parentMessageId with
    | none => [m]
    | some p =>
      match lookupById messages p with
      | none => [m]
      | some pm => walkBackAux messages fuel pm ++ [m]

/-- `buildConversationPath` from the server routes. -/
def buildConversationPath (messages : List Message) (targetMessageId : Nat) :
    List Message :=
  match lookupById messages targetMessageId with
  | none => []
  | some m => walkBackAux messages messages.length m


/-- `IMAGE_MIME_TYPES` from the server routes. -/
def IMAGE_MIME_TYPES : List String :=
  ["image/png", "image/jpeg", "image/gif", "image/webp"]

/-- `PDF_MIME_TYPE` from the server routes. -/
def PDF_MIME_TYPE : String := "application/pdf"

/-- `isImageFile` from the server routes. -/
def isImageFile (mimeType : String) : Bool :=
  IMAGE_MIME_TYPES.contains mimeType

/-- `isPdfFile` from the server routes. -/
def isPdfFile (mimeType : String) : Bool :=
  mimeType == PDF_MIME_TYPE

/-- The `textMimeTypes` allow-list local to `isTextFile`. -/
def textMimeTypes : List String :=
  ["text/plain", "text/html", "text/css", "text/javascript", "text/markdown",
   "text/csv", "text/xml", "application/json", "application/xml",
   "application/javascript", "application/typescript", "application/x-yaml",
   "application/x-sh"]

/-- `isTextFile` from the server routes. -/
def isTextFile (mimeType : String) : Bool :=
  textMimeTypes.contains mimeType || mimeType.startsWith "text/"

/-- A content block sent to the remote model (text, image, or document; the
document media type is always `application/pdf` in the source, so it is not
stored). -/
inductive ContentBlock where
  | image (mediaType : String) (data : String)
  | document (data : String)
  | textBlock (text : String)
  deriving DecidableEq, Repr

/-- Result shape of `buildUserContent`: a plain string or a block list. -/
inductive UserContent where
  | plain (text : String)
  | blocks (blocks : List ContentBlock)
  deriving DecidableEq, Repr

/-- The fenced, filename-labeled text of a text-bucket attachment. -/
def textFileBlockText (originalName : String) (decodedText : String) : String :=
  "[File: " ++ originalName ++ "]\n" ++ "```" ++ "\n" ++ decodedText ++ "\n" ++ "```"

/-- The `for (const file of files)` push loop of `buildUserContent`;
`decode` models `Buffer.from(data, "base64").toString("utf-8")`. -/
def fileBlocksLoop (decode : String → String) :
    List FileAttachment → List ContentBlock → List ContentBlock
  | [], acc => acc
  | f :: fs, acc =>
    if isImageFile f.mimeType then
      fileBlocksLoop decode fs (acc ++ [ContentBlock.image f.mimeType f.data])
    else if isPdfFile f.mimeType then
      fileBlocksLoop decode fs (acc ++ [ContentBlock.document f.data])
    else if isTextFile f.mimeType then
      fileBlocksLoop decode fs
        (acc ++ [ContentBlock.textBlock (textFileBlockText f.originalName (decode f.data))])
    else
      fileBlocksLoop decode fs acc

/-- `buildUserContent` from the server routes: plain text when `files` is
absent or empty, otherwise the attachment blocks followed by one final text
block with the user's text. -/
def buildUserContent (decode : String → String) (text : String)
    (files : Option (List FileAttachment)) : UserContent :=
  match files with
  | none => UserContent.plain text
  | some [] => UserContent.plain text
  | some fs =>
      UserContent.blocks (fileBlocksLoop decode fs [] ++ [ContentBlock.textBlock text])

/-- Spec-side classification of one attachment into its bucket's block
(`none` for the dropped bucket), following §4.5 of the spec. -/
def classifyAttachment (decode : String → String) (f : FileAttachment) :
    Option ContentBlock :=
  if isImageFile f.mimeType then some (ContentBlock.image f.mimeType f.data)
  else if isPdfFile f.mimeType then some (ContentBlock.document f.data)
  else if isTextFile f.mimeType then
    some (ContentBlock.textBlock (textFileBlockText f.originalName (decode f.data)))
  else none

/-- Spec-side content builder, written from the spec's words: plain string
without attachments, otherwise the in-order per-bucket blocks (dropped
buckets contributing nothing) with the user's text as exactly one final
text block. -/
def specUserContent (decode : String → String) (text : String)
    (files : Option (List FileAttachment)) : UserContent :=
  match files with
  | none => UserContent.plain text
  | some [] => UserContent.plain text
  | some fs =>
      UserContent.blocks
        (fs.filterMap (classifyAttachment decode) ++ [ContentBlock.textBlock text])

/-- One event of the remote-model token stream: a text delta or a mid-flight
stream error. -/
inductive StreamEvent where
  | token (text : String)
  | streamFail (message : String)
  deriving DecidableEq, Repr

/-- One server-sent event written to the response: a content chunk, an error
payload, or the terminal `[DONE]` marker. -/
inductive SseEvent where
  | contentChunk (text : String)
  | errorEvent (message : String)
  | doneMarker
  deriving DecidableEq, Repr

/-- The event-processing of the chat handler's stream section:
`stream.on("text")` appends the delta to `fullContent` and relays it;
`stream.on("error")` relays the error payload and the `[DONE]` marker and
ends the response, after which `stream.finalMessage()` rejects, so no
further event is processed.  Returns the accumulated text, the events
written, and the error message if one occurred. -/
def relayLoop : List StreamEvent → String → List SseEvent →
    String × List SseEvent × Option String
  | [], acc, out => (acc, out, none)
  | StreamEvent.token s :: es, acc, out =>
      relayLoop es (acc ++ s) (out ++ [SseEvent.contentChunk s])
  | StreamEvent.streamFail m :: _, acc, out =>
      (acc, out ++ [SseEvent.errorEvent m, SseEvent.doneMarker], some m)

/-- The chat handler from the model call onwards, as a function of the
stream's events.  `store` is the message table after the user message was
committed; on successful completion (and only then) the assistant row built
from the accumulated text is appended and `[DONE]` is written; on a stream
error the rejection of `stream.finalMessage()` jumps to the catch block and
nothing is persisted. -/
def handleChatStream (events : List StreamEvent) (store : List Message)
    (mkAssistantRow : String → Message) : List Message × List SseEvent :=
  match relayLoop events "" [] with
  | (fullContent, out, none) =>
      (store ++ [mkAssistantRow fullContent], out ++ [SseEvent.doneMarker])
  | (_, out, some _) => (store, out)

/-- Uniqueness of the `id` primary key. -/
def NodupIds (messages : List Message) : Prop :=
  (messages.map (fun m => m.id)).Nodup

/-- The data-model invariant of §3 of the spec: ids are unique and every
non-null `parentMessageId` references a row of the same list created
strictly earlier (hence no cycles). -/
def ValidForest (messages : List Message) : Prop :=
  NodupIds messages
    ∧ ∀ m ∈ messages, ∀ p, m.parentMessageId = some p →
        ∃ pm ∈ messages, pm.id = p ∧ pm.createdAt < m.createdAt

/-- Number of rows created strictly before `m`: the decreasing measure of
the parent walk under `ValidForest`. -/
def countEarlier (messages : List Message) (m : Message) : Nat :=
  (messages.filter (fun x => x.createdAt < m.createdAt)).length

/-- Fueled ancestor count: one more than the depth of the parent, stopping
at a null or unresolvable parent.  Fuel `messages.length` is always enough
under `ValidForest`. -/
def depthAux (messages : List Message) : Nat → Message → Nat
  | 0, _ => 1
  | fuel + 1, m =>
    match m.parentMessageId with
    | none => 1
    | some p =>
      match messages.find? (fun x => x.id == p) with
      | none => 1
      | some pm => depthAux messages fuel pm + 1

/-- Depth of a message in the forest: its distance to its root, counting
itself. -/
def msgDepth (messages : List Message) (m : Message) : Nat :=
  depthAux messages messages.length m

/-- The forest's maximum depth. -/
def maxDepth (messages : List Message) : Nat :=
  messages.foldr (fun m acc => max (msgDepth messages m) acc) 0

/-- `chain` is the fully-present ancestor chain of `m` inside `messages`:
its first element has a null `parentMessageId`, each later element's
`parentMessageId` is the id of the element right before it, every element
is a row of `messages`, and `m` is the last element — "each parentMessageId
resolves, terminating at null". -/
inductive AncChain (messages : List Message) : Message → List Message → Prop where
  | root (m : Message) (hm : m ∈ messages) (hp : m.parentMessageId = none) :
      AncChain messages m [m]
  | step (pm m : Message) (chain : List Message)
      (hc : AncChain messages pm chain)
      (hm : m ∈ messages) (hp : m.parentMessageId = some pm.id) :
      AncChain messages m (chain ++ [m])

/-- Every element of the list is a row of `messages` whose depth increases
by one per position, starting at `d + 1`: the shape of a suffix of the
active-path walk below a node of depth `d`. -/
def DepthSeq (messages : List Message) : Nat → List Message → Prop
  | _, [] => True
  | d, x :: xs =>
      x ∈ messages ∧ msgDepth messages x = d + 1 ∧ DepthSeq messages (d + 1) xs

/-- Concrete rows used by the closed instance theorems below. -/
def exC1root : Message := ⟨1, none, "assistant", "root", false, 100⟩

def exC1child : Message := ⟨2, some 1, "user", "next main turn", false, 200⟩

def exC2thread : Message := ⟨1, none, "user", "thread turn", true, 5⟩

def exC2plain : Message := ⟨1, none, "user", "hello", false, 5⟩

def exC5root : Message := ⟨1, none, "assistant", "thread root", false, 10⟩

def exC5child : Message := ⟨2, some 1, "user", "thread question", true, 20⟩

def exC6first : Message := ⟨2, none, "user", "second id, first row", false, 50⟩

def exC6second : Message := ⟨1, none, "user", "first id, second row", false, 50⟩

def exU1 : Message := ⟨1, none, "user", "u1", false, 10⟩

def exA1 : Message := ⟨2, some 1, "assistant", "a1", false, 20⟩

def exU2 : Message := ⟨3, some 2, "user", "u2", false, 30⟩

def exC7root : Message := ⟨1, none, "user", "x", false, 10⟩

def exC7dangling : Message := ⟨2, some 5, "user", "y", false, 20⟩

def exC8root : Message := ⟨1, none, "user", "p", false, 10⟩

def exC8child : Message := ⟨2, some 1, "assistant", "q", false, 20⟩

def exC10only : Message := ⟨1, none, "user", "hi", false, 5⟩

theorem perm_insertByCreated (m : Message) (l : List Message) :
    List.Perm (insertByCreated m l) (m :: l) := by
  induction l with
  | nil => simp [insertByCreated]
  | cons b t ih =>
    by_cases h : b.createdAt < m.createdAt
    · simp only [insertByCreated, if_pos h]
      exact (ih.cons b).trans (List.Perm.swap m b t)
    · simp [insertByCreated, if_neg h]

theorem perm_sortByCreated (l : List Message) : List.Perm (sortByCreated l) l := by
  induction l with
  | nil => simp [sortByCreated]
  | cons a t ih =>
    exact (perm_insertByCreated a (sortByCreated t)).trans (ih.cons a)

theorem mem_sortByCreated {x : Message} {l : List Message} :
    x ∈ sortByCreated l ↔ x ∈ l :=
  (perm_sortByCreated l).mem_iff

theorem length_sortByCreated (l : List Message) :
    (sortByCreated l).length = l.length :=
  (perm_sortByCreated l).length_eq

theorem sortByCreated_eq_nil {l : List Message} :
    sortByCreated l = [] ↔ l = [] := by
  constructor
  · intro h
    have := length_sortByCreated l
    rw [h] at this
    exact List.length_eq_zero.mp this.symm
  · intro h; subst h; rfl

theorem pairwise_insertByCreated {m : Message} {l : List Message}
    (h : l.Pairwise (fun a b => a.createdAt ≤ b.createdAt)) :
    (insertByCreated m l).Pairwise (fun a b => a.createdAt ≤ b.createdAt) := by
  induction l with
  | nil => simp [insertByCreated]
  | cons b t ih =>
    rcases List.pairwise_cons.mp h with ⟨hb, ht⟩
    by_cases hlt : b.createdAt < m.createdAt
    · simp only [insertByCreated, if_pos hlt]
      refine List.pairwise_cons.mpr ⟨?_, ih ht⟩
      intro x hx
      rcases List.mem_cons.mp ((perm_insertByCreated m t).mem_iff.mp hx) with h1 | h2
      · subst h1; exact Nat.le_of_lt hlt
      · exact hb x h2
    · simp only [insertByCreated, if_neg hlt]
      refine List.pairwise_cons.mpr ⟨?_, h⟩
      intro x hx
      rcases List.mem_cons.mp hx with h1 | h2
      · subst h1; omega
      · exact Nat.le_trans (by omega) (hb x h2)

theorem sortByCreated_sorted (l : List Message) :
    (sortByCreated l).Pairwise (fun a b => a.createdAt ≤ b.createdAt) := by
  induction l with
  | nil => simp [sortByCreated]
  | cons a t ih => exact pairwise_insertByCreated ih

theorem filter_createdAt_insertByCreated (t : Nat) (m : Message) (l : List Message) :
    (insertByCreated m l).filter (fun x => x.createdAt == t)
      = (m :: l).filter (fun x => x.createdAt == t) := by
  induction l with
  | nil => rfl
  | cons b l ih =>
    by_cases hlt : b.createdAt < m.createdAt
    · simp only [insertByCreated, if_pos hlt]
      by_cases hb : b.createdAt = t
      · have hm : (m.createdAt == t) = false := by
          have : ¬ m.createdAt = t := by omega
          simp [this]
        simp only [List.filter, hm] at ih ⊢
        simp only [hb, beq_self_eq_true, ih]
      · have hb' : (b.createdAt == t) = false := by simp [hb]
        simp only [List.filter, hb']
        rw [ih]
        simp only [List.filter, hb']
    · simp [insertByCreated, if_neg hlt]

theorem sortByCreated_stable (t : Nat) (l : List Message) :
    (sortByCreated l).filter (fun x => x.createdAt == t)
      = l.filter (fun x => x.createdAt == t) := by
  induction l with
  | nil => rfl
  | cons a l ih =>
    show (insertByCreated a (sortByCreated l)).filter _ = _
    rw [filter_createdAt_insertByCreated]
    simp only [List.filter]
    cases h : (a.createdAt == t) <;> simp [h, ih]

theorem sortByCreated_of_sorted {l : List Message}
    (h : l.Pairwise (fun a b => a.createdAt ≤ b.createdAt)) :
    sortByCreated l = l := by
  induction l with
  | nil => rfl
  | cons a t ih =>
    rcases List.pairwise_cons.mp h with ⟨ha, ht⟩
    show insertByCreated a (sortByCreated t) = a :: t
    rw [ih ht]
    cases t with
    | nil => rfl
    | cons b t' =>
      have : ¬ b.createdAt < a.createdAt := by
        have := ha b (List.mem_cons_self b t')
        omega
      simp [insertByCreated, this]

theorem sortByCreated_idem (l : List Message) :
    sortByCreated (sortByCreated l) = sortByCreated l :=
  sortByCreated_of_sorted (sortByCreated_sorted l)

theorem oldestIn_cons : ∀ (xs : List Message) (c x : Message),
    oldestIn c (x :: xs)
      = if (oldestIn x xs).createdAt < c.createdAt then oldestIn x xs else c := by
  intro xs
  induction xs with
  | nil =>
    intro c x
    by_cases h : x.createdAt < c.createdAt <;> simp [oldestIn, h]
  | cons y ys ih =>
    intro c x
    have e1 : oldestIn c (x :: y :: ys)
        = if x.createdAt < c.createdAt then oldestIn x (y :: ys) else oldestIn c (y :: ys) := rfl
    rw [e1, ih c y, ih x y]
    split_ifs <;> first | rfl | (exfalso; omega)

theorem head_sortByCreated : ∀ (cs : List Message) (c : Message),
    ∃ r, sortByCreated (c :: cs) = oldestIn c cs :: r := by
  intro cs
  induction cs with
  | nil => intro c; exact ⟨[], rfl⟩
  | cons x xs ih =>
    intro c
    obtain ⟨r, hr⟩ := ih x
    have e : sortByCreated (c :: x :: xs) = insertByCreated c (sortByCreated (x :: xs)) := rfl
    rw [e, hr, oldestIn_cons]
    by_cases h : (oldestIn x xs).createdAt < c.createdAt
    · exact ⟨insertByCreated c r, by simp [insertByCreated, h]⟩
    · exact ⟨oldestIn x xs :: r, by simp [insertByCreated, h]⟩

theorem getD_mem_or_eq : ∀ (l : List Message) (n : Nat) (d : Message),
    l.getD n d ∈ l ∨ l.getD n d = d := by
  intro l
  induction l with
  | nil => intro n d; right; cases n <;> rfl
  | cons x xs ih =>
    intro n d
    cases n with
    | zero => left; simp [List.getD]
    | succ k =>
      have e : (x :: xs).getD (k + 1) d = xs.getD k d := by simp [List.getD]
      rw [e]
      rcases ih k d with h | h
      · left; exact List.mem_cons_of_mem x h
      · right; exact h

theorem selectChild_mem (sel : Option Int) (c : Message) (cs : List Message) :
    selectChild sel c cs ∈ c :: cs := by
  unfold selectChild
  rcases getD_mem_or_eq (c :: cs) (clampIndex sel (c :: cs).length).toNat c with h | h
  · exact h
  · rw [h]; exact List.mem_cons_self c cs

theorem clampIndex_range (sel : Option Int) (len : Nat) (h : 1 ≤ len) :
    0 ≤ clampIndex sel len ∧ clampIndex sel len ≤ (len : Int) - 1 := by
  unfold clampIndex
  set s := sel.getD 0 with hs
  omega

theorem buildMessageTree_mem {messages : List Message} {incl : Bool} {key : Int}
    {x : Message} (hx : x ∈ buildMessageTree messages incl key) :
    x ∈ messages ∧ (incl || !x.isThreadMessage) = true
      ∧ normalizeParentId x.parentMessageId = key := by
  unfold buildMessageTree at hx
  rcases List.mem_filter.mp (mem_sortByCreated.mp hx) with ⟨hm, hcond⟩
  simp only [Bool.and_eq_true, beq_iff_eq] at hcond
  exact ⟨hm, hcond.1, hcond.2⟩

theorem getThreadChainAux_eq_spec (messages : List Message) :
    ∀ (fuel currentId : Nat),
      getThreadChainAux messages fuel currentId
        = specOldestWalkAux messages fuel currentId := by
  intro fuel
  induction fuel with
  | zero => intro c; rfl
  | succ f ih =>
    intro currentId
    cases h : childrenOf messages currentId with
    | nil => simp [getThreadChainAux, specOldestWalkAux, h, sortByCreated]
    | cons c cs =>
      obtain ⟨r, hr⟩ := head_sortByCreated cs c
      simp [getThreadChainAux, specOldestWalkAux, h, hr, ih]

/-- C1 (amended): for every flat message list and thread root id, the
server-side thread-mode history walk `getThreadChain` produces the chain
obtained by starting at the root and, at each step, appending the
oldest-by-`createdAt` child of the current node regardless of its
`isThreadMessage` flag, stopping when the current node has no children —
so the messages it returns after the root need not be thread-flagged. -/
theorem c1_threadChain_oldest_child_unfiltered
    (messages : List Message) (rootId : Nat) :
    getThreadChain messages rootId = specOldestChildWalk messages rootId :=
  getThreadChainAux_eq_spec messages messages.length rootId

/-- C1 counterexample: with a root whose only child is a main-tree (not
thread-flagged) message, `getThreadChain` returns that child, so it is not
true that every message it returns after the root has `isThreadMessage`
true (the claimed walk, which stops when no thread-flagged child exists,
would have returned no message at all). -/
theorem c1_counterexample_nonthread_child :
    getThreadChain [exC1root, exC1child] 1 = [exC1child]
    ∧ exC1child.isThreadMessage = false
    ∧ ¬ (∀ m ∈ getThreadChain [exC1root, exC1child] 1, m.isThreadMessage = true) := by
  refine ⟨by decide, by decide, by decide⟩

theorem fileBlocksLoop_eq_filterMap (decode : String → String) :
    ∀ (fs : List FileAttachment) (acc : List ContentBlock),
      fileBlocksLoop decode fs acc = acc ++ fs.filterMap (classifyAttachment decode) := by
  intro fs
  induction fs with
  | nil => intro acc; simp [fileBlocksLoop]
  | cons f fs ih =>
    intro acc
    cases h1 : isImageFile f.mimeType with
    | true => simp [fileBlocksLoop, classifyAttachment, h1, ih]
    | false =>
      cases h2 : isPdfFile f.mimeType with
      | true => simp [fileBlocksLoop, classifyAttachment, h1, h2, ih]
      | false =>
        cases h3 : isTextFile f.mimeType with
        | true => simp [fileBlocksLoop, classifyAttachment, h1, h2, h3, ih]
        | false => simp [fileBlocksLoop, classifyAttachment, h1, h2, h3, ih]

/-- C4: `buildUserContent` returns the plain string when the attachment
list is empty or absent; otherwise the block list with, in input order, an
image block per image-bucket attachment, a document block per PDF, a
fenced filename-labeled text block per text-bucket attachment (decoded),
nothing for any attachment outside the three buckets, and the user's text
as exactly one final text block. -/
theorem c4_buildUserContent_matches_spec (decode : String → String) (text : String)
    (files : Option (List FileAttachment)) :
    buildUserContent decode text files = specUserContent decode text files := by
  match files with
  | none => rfl
  | some [] => rfl
  | some (f :: fs) =>
    simp [buildUserContent, specUserContent, fileBlocksLoop_eq_filterMap]

/-- C10: when `rootMessageId` is not the id of any message in the list,
`getThreadMessages` returns the empty list. -/
theorem c10_missing_root_yields_empty (messages : List Message) (rootMessageId : Nat)
    (branchSelections : BranchSelection)
    (h : ∀ m ∈ messages, m.id ≠ rootMessageId) :
    getThreadMessages messages rootMessageId branchSelections = [] := by
  unfold getThreadMessages
  have hf : messages.find? (fun m => m.id == rootMessageId) = none := by
    rw [List.find?_eq_none]
    intro x hx
    simp [h x hx]
  rw [hf]

theorem c10_witness :
    getThreadMessages [exC10only] 2 (fun _ => none) = [] :=
  c10_missing_root_yields_empty [exC10only] 2 (fun _ => none) (by decide)

theorem threadWalkAux_flag (messages : List Message) (sel : BranchSelection) :
    ∀ (fuel pid : Nat), ∀ x ∈ threadWalkAux messages sel fuel pid,
      x.isThreadMessage = true := by
  intro fuel
  induction fuel with
  | zero => intro pid x hx; simp [threadWalkAux] at hx
  | succ f ih =>
    intro pid x hx
    revert hx
    cases h : (buildMessageTree messages true (pid : Int)).filter
        (fun c => c.isThreadMessage) with
    | nil => simp [threadWalkAux, h]
    | cons c cs =>
      simp only [threadWalkAux, h]
      intro hx
      rcases List.mem_cons.mp hx with h1 | h2
      · subst h1
        have hmem := selectChild_mem (sel (pid : Int)) c cs
        rw [← h] at hmem
        exact (List.mem_filter.mp hmem).2
      · exact ih _ x h2

/-- C5: every element of `getThreadMessages` other than the first (the
supplied root) has `isThreadMessage` true, and no element is a sibling of
the root in the main tree — a distinct main-tree (non-thread) message
sharing the root's normalized parent. -/
theorem c5_thread_isolation :
    (∀ (messages : List Message) (rootMessageId : Nat) (sel : BranchSelection),
        ∀ x ∈ (getThreadMessages messages rootMessageId sel).tail,
          x.isThreadMessage = true)
    ∧ (∀ (messages : List Message) (rootMessageId : Nat) (sel : BranchSelection)
        (rootMessage : Message),
        messages.find? (fun m => m.id == rootMessageId) = some rootMessage →
        ∀ x ∈ getThreadMessages messages rootMessageId sel,
          ¬ (x ≠ rootMessage ∧ x.isThreadMessage = false
              ∧ normalizeParentId x.parentMessageId
                  = normalizeParentId rootMessage.parentMessageId)) := by
  constructor
  · intro messages rootMessageId sel x hx
    unfold getThreadMessages at hx
    cases hf : messages.find? (fun m => m.id == rootMessageId) with
    | none => rw [hf] at hx; simp at hx
    | some root =>
      rw [hf] at hx
      simp only [List.tail_cons] at hx
      exact threadWalkAux_flag messages sel messages.length rootMessageId x hx
  · intro messages rootMessageId sel rootMessage hf x hx hbad
    unfold getThreadMessages at hx
    rw [hf] at hx
    rcases List.mem_cons.mp hx with h1 | h2
    · exact hbad.1 h1
    · have := threadWalkAux_flag messages sel messages.length rootMessageId x h2
      rw [hbad.2.1] at this
      exact Bool.false_ne_true this

theorem c5_witness :
    ¬ (exC5child ≠ exC5root ∧ exC5child.isThreadMessage = false
        ∧ normalizeParentId exC5child.parentMessageId
            = normalizeParentId exC5root.parentMessageId) :=
  c5_thread_isolation.2 [exC5root, exC5child] 1 (fun _ => none) exC5root (by decide)
    exC5child (by decide)

theorem findIndexBy_of_exists (p : Message → Bool) :
    ∀ (l : List Message), (∃ x ∈ l, p x = true) →
      ∃ i x, findIndexBy p l = some i ∧ l.get? i = some x ∧ p x = true := by
  intro l
  induction l with
  | nil => rintro ⟨x, hx, _⟩; exact absurd hx (List.not_mem_nil x)
  | cons a t ih =>
    rintro ⟨x, hx, hpx⟩
    cases hpa : p a with
    | true => exact ⟨0, a, by simp [findIndexBy, hpa], rfl, hpa⟩
    | false =>
      have hxt : x ∈ t := by
        rcases List.mem_cons.mp hx with h1 | h2
        · subst h1; rw [hpa] at hpx; exact absurd hpx (by simp)
        · exact h2
      obtain ⟨i, y, hi, hy, hpy⟩ := ih ⟨x, hxt, hpx⟩
      exact ⟨i + 1, y, by simp [findIndexBy, hpa, hi], by simpa using hy, hpy⟩

theorem getSiblings_self_mem {messages : List Message} {m : Message}
    (hm : m ∈ messages) (hflag : m.isThreadMessage = false) :
    m ∈ getSiblings messages m false := by
  unfold getSiblings
  apply mem_sortByCreated.mpr
  apply List.mem_filter.mpr
  exact ⟨hm, by simp [hflag]⟩

/-- C2 (amended): for every message list and every message `m` in it whose
`isThreadMessage` flag is false, the navigator's default
`getSiblings(messages, m)` contains `m` itself and the computed sibling
index points at an entry whose id is `m.id`; when `m.isThreadMessage` is
true, `m` is excluded from its own sibling list (the default call filters
thread messages out). -/
theorem c2_siblings_contain_nonthread_self (messages : List Message) (m : Message)
    (hm : m ∈ messages) (hflag : m.isThreadMessage = false) :
    m ∈ (siblingData messages m).1
    ∧ ∃ x, (siblingData messages m).1.get? (siblingData messages m).2 = some x
        ∧ x.id = m.id := by
  have hself := getSiblings_self_mem hm hflag
  constructor
  · simpa [siblingData] using hself
  · obtain ⟨i, x, hi, hx, hpx⟩ := findIndexBy_of_exists (fun s => s.id == m.id)
      (getSiblings messages m false) ⟨m, hself, by simp⟩
    refine ⟨x, ?_, by simpa using hpx⟩
    have hx2 : (getSiblings messages m false)[i]? = some x := by
      simpa [List.get?_eq_getElem?] using hx
    simp [siblingData, hi, hx2]

theorem c2_witness :
    exC2plain ∈ (siblingData [exC2plain] exC2plain).1
    ∧ ∃ x, (siblingData [exC2plain] exC2plain).1.get?
        (siblingData [exC2plain] exC2plain).2 = some x ∧ x.id = exC2plain.id :=
  c2_siblings_contain_nonthread_self [exC2plain] exC2plain (by decide) (by decide)

/-- C2 counterexample: a thread-flagged message is filtered out of its own
sibling list by the navigator's default `getSiblings` call, so the returned
list does not contain `m` (here it is empty, so no index can satisfy
`siblings[siblingIndex].id === m.id` either). -/
theorem c2_counterexample_thread_message_excluded :
    exC2thread.isThreadMessage = true
    ∧ (siblingData [exC2thread] exC2thread).1 = []
    ∧ exC2thread ∉ (siblingData [exC2thread] exC2thread).1 := by
  refine ⟨by decide, by decide, by decide⟩

/-- C6 (amended): building the tree is deterministic and idempotent (the
embedding is a pure function, and re-sorting a built group changes
nothing), and within each sibling group messages are ordered ascending by
`createdAt`; two messages sharing a timestamp keep their relative order
from the input list (stable sort) — there is no id tiebreaker. -/
theorem c6_tree_build_sorted_stable :
    (∀ (messages : List Message) (incl : Bool) (key : Int),
        buildMessageTree messages incl key = buildMessageTree messages incl key
        ∧ sortByCreated (buildMessageTree messages incl key)
            = buildMessageTree messages incl key)
    ∧ (∀ (messages : List Message) (incl : Bool) (key : Int),
        (buildMessageTree messages incl key).Pairwise
          (fun a b => a.createdAt ≤ b.createdAt))
    ∧ (∀ (messages : List Message) (incl : Bool) (key : Int) (t : Nat),
        (buildMessageTree messages incl key).filter (fun x => x.createdAt == t)
          = (messages.filter (fun m => (incl || !m.isThreadMessage)
              && (normalizeParentId m.parentMessageId == key))).filter
                (fun x => x.createdAt == t))
    ∧ (∀ (messages : List Message) (incl : Bool) (key : Int),
        List.Perm (buildMessageTree messages incl key)
          (messages.filter (fun m => (incl || !m.isThreadMessage)
            && (normalizeParentId m.parentMessageId == key)))) := by
  refine ⟨?_, ?_, ?_, ?_⟩
  · intro messages incl key
    exact ⟨rfl, sortByCreated_idem _⟩
  · intro messages incl key
    exact sortByCreated_sorted _
  · intro messages incl key t
    exact sortByCreated_stable t _
  · intro messages incl key
    exact perm_sortByCreated _

/-- C6 counterexample: two root messages share a timestamp and arrive with
the larger id first; the built sibling group keeps the input order
`[id 2, id 1]`, which is not sorted by `createdAt` with id as tiebreaker —
the source comparator uses `createdAt` only and the sort is stable. -/
theorem c6_counterexample_no_id_tiebreak :
    buildMessageTree [exC6first, exC6second] false ROOT_PARENT_KEY
      = [exC6first, exC6second]
    ∧ exC6first.createdAt = exC6second.createdAt
    ∧ exC6second.id < exC6first.id
    ∧ ¬ (buildMessageTree [exC6first, exC6second] false ROOT_PARENT_KEY).Pairwise
        (fun a b => a.createdAt < b.createdAt
          ∨ (a.createdAt = b.createdAt ∧ a.id ≤ b.id)) := by
  refine ⟨by decide, by decide, by decide, by decide⟩

theorem relayLoop_err :
    ∀ (events : List StreamEvent) (acc : String) (out : List SseEvent),
      (∃ m, StreamEvent.streamFail m ∈ events) →
      ∃ m full pre, relayLoop events acc out
        = (full, out ++ pre ++ [SseEvent.errorEvent m, SseEvent.doneMarker], some m) := by
  intro events
  induction events with
  | nil =>
    rintro acc out ⟨m, hm⟩
    exact absurd hm (List.not_mem_nil _)
  | cons e es ih =>
    rintro acc out ⟨m, hm⟩
    cases e with
    | token s =>
      have hm' : StreamEvent.streamFail m ∈ es := by
        rcases List.mem_cons.mp hm with h1 | h2
        · exact absurd h1 (by simp)
        · exact h2
      obtain ⟨m2, full, pre, heq⟩ :=
        ih (acc ++ s) (out ++ [SseEvent.contentChunk s]) ⟨m, hm'⟩
      refine ⟨m2, full, SseEvent.contentChunk s :: pre, ?_⟩
      rw [show relayLoop (StreamEvent.token s :: es) acc out
          = relayLoop es (acc ++ s) (out ++ [SseEvent.contentChunk s]) from rfl, heq]
      simp
    | streamFail m2 =>
      exact ⟨m2, acc, [], by simp [relayLoop]⟩

/-- C9: if the remote-model stream errors mid-flight, no assistant row is
persisted — the store after the handler equals the store before the model
call (the user message already committed) — and the error event is written
to the client followed by the terminal marker, i.e. before the stream is
terminated. -/
theorem c9_stream_error_no_persist (events : List StreamEvent)
    (store : List Message) (mkAssistantRow : String → Message)
    (h : ∃ m, StreamEvent.streamFail m ∈ events) :
    (handleChatStream events store mkAssistantRow).1 = store
    ∧ ∃ m pre, (handleChatStream events store mkAssistantRow).2
        = pre ++ [SseEvent.errorEvent m, SseEvent.doneMarker] := by
  obtain ⟨m, full, pre, heq⟩ := relayLoop_err events "" [] h
  unfold handleChatStream
  rw [heq]
  exact ⟨rfl, m, pre, by simp⟩

theorem c9_witness :
    (handleChatStream [StreamEvent.token "a", StreamEvent.streamFail "boom"] []
        (fun s => ⟨7, none, "assistant", s, false, 9⟩)).1 = []
    ∧ ∃ m pre, (handleChatStream [StreamEvent.token "a", StreamEvent.streamFail "boom"] []
        (fun s => ⟨7, none, "assistant", s, false, 9⟩)).2
        = pre ++ [SseEvent.errorEvent m, SseEvent.doneMarker] :=
  c9_stream_error_no_persist _ _ _ ⟨"boom", by decide⟩

theorem getActivePathAux_subset (messages : List Message) (sel : BranchSelection) :
    ∀ (fuel : Nat) (key : Int),
      ∀ x ∈ getActivePathAux messages sel fuel key, x ∈ messages := by
  intro fuel
  induction fuel with
  | zero => intro key x hx; simp [getActivePathAux] at hx
  | succ f ih =>
    intro key x hx
    revert hx
    cases h : buildMessageTree messages false key with
    | nil => simp [getActivePathAux, h]
    | cons c cs =>
      simp only [getActivePathAux, h]
      intro hx
      rcases List.mem_cons.mp hx with h1 | h2
      · subst h1
        have hmem := selectChild_mem (sel key) c cs
        rw [← h] at hmem
        exact (buildMessageTree_mem hmem).1
      · exact ih _ x h2

theorem threadWalkAux_subset (messages : List Message) (sel : BranchSelection) :
    ∀ (fuel pid : Nat),
      ∀ x ∈ threadWalkAux messages sel fuel pid, x ∈ messages := by
  intro fuel
  induction fuel with
  | zero => intro pid x hx; simp [threadWalkAux] at hx
  | succ f ih =>
    intro pid x hx
    revert hx
    cases h : (buildMessageTree messages true (pid : Int)).filter
        (fun c => c.isThreadMessage) with
    | nil => simp [threadWalkAux, h]
    | cons c cs =>
      simp only [threadWalkAux, h]
      intro hx
      rcases List.mem_cons.mp hx with h1 | h2
      · subst h1
        have hmem := selectChild_mem (sel (pid : Int)) c cs
        rw [← h] at hmem
        exact (buildMessageTree_mem (List.mem_filter.mp hmem).1).1
      · exact ih _ x h2

theorem lookupById_eq_none {messages : List Message} {i : Nat}
    (h : ∀ m ∈ messages, m.id ≠ i) : lookupById messages i = none := by
  unfold lookupById
  suffices H : ∀ (l : List Message) (acc : Option Message),
      (∀ m ∈ l, m.id ≠ i) →
      l.foldl (fun acc m => if m.id == i then some m else acc) acc = acc by
    exact H messages none h
  intro l
  induction l with
  | nil => intro acc _; rfl
  | cons a t ih =>
    intro acc ha
    have h1 : (a.id == i) = false := by
      simp [ha a (List.mem_cons_self a t)]
    simp only [List.foldl_cons, h1, Bool.false_eq_true, if_false]
    exact ih acc (fun m hm => ha m (List.mem_cons_of_mem a hm))

theorem walkBackAux_dangling {messages : List Message} {m : Message} {p : Nat}
    (hp : m.parentMessageId = some p) (hl : lookupById messages p = none) :
    ∀ fuel, walkBackAux messages fuel m = [m] := by
  intro fuel
  cases fuel with
  | zero => rfl
  | succ f => simp [walkBackAux, hp, hl]

/-- C7: the path-resolution and assembly functions are defensive on
degenerate input — the branch index is clamped into `[0, childCount-1]`, so
any selection (including out-of-range ones) yields a child of the group and
every message `getActivePath`/`getThreadMessages` returns is a real row of
the input list; and `buildConversationPath` returns the empty chain when the
target id resolves to no row, and the single-element chain when the target's
own `parentMessageId` points to no row — never an error. -/
theorem c7_defensive_clamping_and_degraded_walks :
    (∀ (sel : Option Int) (len : Nat), 1 ≤ len →
        0 ≤ clampIndex sel len ∧ clampIndex sel len ≤ (len : Int) - 1)
    ∧ (∀ (sel : Option Int) (c : Message) (cs : List Message),
        selectChild sel c cs ∈ c :: cs)
    ∧ (∀ (messages : List Message) (sel : BranchSelection),
        ∀ x ∈ getActivePath messages sel, x ∈ messages)
    ∧ (∀ (messages : List Message) (rootMessageId : Nat) (sel : BranchSelection),
        ∀ x ∈ getThreadMessages messages rootMessageId sel, x ∈ messages)
    ∧ (∀ (messages : List Message) (targetMessageId : Nat),
        lookupById messages targetMessageId = none →
        buildConversationPath messages targetMessageId = [])
    ∧ (∀ (messages : List Message) (targetMessageId : Nat) (m : Message) (p : Nat),
        lookupById messages targetMessageId = some m →
        m.parentMessageId = some p →
        lookupById messages p = none →
        buildConversationPath messages targetMessageId = [m]) := by
  refine ⟨clampIndex_range, selectChild_mem, ?_, ?_, ?_, ?_⟩
  · intro messages sel x hx
    exact getActivePathAux_subset messages sel messages.length ROOT_PARENT_KEY x hx
  · intro messages rootMessageId sel x hx
    unfold getThreadMessages at hx
    cases hf : messages.find? (fun m => m.id == rootMessageId) with
    | none => rw [hf] at hx; simp at hx
    | some root =>
      rw [hf] at hx
      rcases List.mem_cons.mp hx with h1 | h2
      · subst h1; exact List.mem_of_find?_eq_some hf
      · exact threadWalkAux_subset messages sel messages.length rootMessageId x h2
  · intro messages targetMessageId hl
    unfold buildConversationPath
    rw [hl]
  · intro messages targetMessageId m p hm hp hl
    unfold buildConversationPath
    rw [hm]
    exact walkBackAux_dangling hp hl messages.length

theorem c7_witness :
    (0 ≤ clampIndex (some 99) 1 ∧ clampIndex (some 99) 1 ≤ (1 : Int) - 1)
    ∧ buildConversationPath [exC7root] 2 = []
    ∧ buildConversationPath [exC7root, exC7dangling] 2 = [exC7dangling] :=
  ⟨c7_defensive_clamping_and_degraded_walks.1 (some 99) 1 (by decide),
   c7_defensive_clamping_and_degraded_walks.2.2.2.2.1 [exC7root] 2 (by decide),
   c7_defensive_clamping_and_degraded_walks.2.2.2.2.2 [exC7root, exC7dangling] 2
     exC7dangling 5 (by decide) (by decide) (by decide)⟩

theorem nodupIds_inj {messages : List Message} (h : NodupIds messages) :
    ∀ a ∈ messages, ∀ b ∈ messages, a.id = b.id → a = b := by
  unfold NodupIds at h
  induction messages with
  | nil => intro a ha; exact absurd ha (List.not_mem_nil a)
  | cons x t ih =>
    simp only [List.map_cons, List.nodup_cons] at h
    obtain ⟨hx, ht⟩ := h
    intro a ha b hb heq
    rcases List.mem_cons.mp ha with h1 | h2 <;> rcases List.mem_cons.mp hb with g1 | g2
    · subst h1; subst g1; rfl
    · subst h1
      have : b.id ∈ t.map (fun m => m.id) := List.mem_map_of_mem _ g2
      rw [← heq] at this
      exact absurd this hx
    · subst g1
      have : a.id ∈ t.map (fun m => m.id) := List.mem_map_of_mem _ h2
      rw [heq] at this
      exact absurd this hx
    · exact ih ht a h2 b g2 heq

theorem lookupFold_const {i : Nat} : ∀ (l : List Message) (acc : Option Message),
    (∀ m ∈ l, m.id ≠ i) →
    l.foldl (fun acc m => if m.id == i then some m else acc) acc = acc := by
  intro l
  induction l with
  | nil => intro acc _; rfl
  | cons a t ih =>
    intro acc ha
    have h1 : (a.id == i) = false := by
      simp [ha a (List.mem_cons_self a t)]
    simp only [List.foldl_cons, h1, Bool.false_eq_true, if_false]
    exact ih acc (fun m hm => ha m (List.mem_cons_of_mem a hm))

theorem lookupById_self {messages : List Message} (h : NodupIds messages) :
    ∀ m ∈ messages, lookupById messages m.id = some m := by
  induction messages with
  | nil => intro m hm; exact absurd hm (List.not_mem_nil m)
  | cons a t ih =>
    intro m hm
    have h' := h
    unfold NodupIds at h'
    simp only [List.map_cons, List.nodup_cons] at h'
    obtain ⟨ha, ht⟩ := h'
    rcases List.mem_cons.mp hm with h1 | h2
    · subst h1
      show (m :: t).foldl (fun acc x => if x.id == m.id then some x else acc) none = some m
      simp only [List.foldl_cons, beq_self_eq_true, if_true]
      apply lookupFold_const
      intro x hx hcontra
      exact ha (hcontra ▸ List.mem_map_of_mem (fun y => y.id) hx)
    · have hne : (a.id == m.id) = false := by
        by_cases hc : a.id = m.id
        · exact absurd (hc ▸ List.mem_map_of_mem (fun y => y.id) h2) ha
        · simp [hc]
      show (a :: t).foldl (fun acc x => if x.id == m.id then some x else acc) none = some m
      simp only [List.foldl_cons, hne, Bool.false_eq_true, if_false]
      exact ih ht m h2

theorem find?_id_self {messages : List Message} (h : NodupIds messages) :
    ∀ m ∈ messages, messages.find? (fun x => x.id == m.id) = some m := by
  induction messages with
  | nil => intro m hm; exact absurd hm (List.not_mem_nil m)
  | cons a t ih =>
    intro m hm
    have h' := h
    unfold NodupIds at h'
    simp only [List.map_cons, List.nodup_cons] at h'
    obtain ⟨ha, ht⟩ := h'
    rcases List.mem_cons.mp hm with h1 | h2
    · subst h1
      simp [List.find?]
    · have hne : (a.id == m.id) = false := by
        by_cases hc : a.id = m.id
        · exact absurd (hc ▸ List.mem_map_of_mem (fun y => y.id) h2) ha
        · simp [hc]
      simp only [List.find?, hne]
      exact ih ht m h2

theorem ancChain_ne_nil {messages : List Message} {m : Message} {c : List Message}
    (h : AncChain messages m c) : c ≠ [] := by
  cases h <;> simp

theorem ancChain_mem_self {messages : List Message} {m : Message} {c : List Message}
    (h : AncChain messages m c) : m ∈ messages := by
  cases h with
  | root _ hm _ => exact hm
  | step _ _ _ _ hm _ => exact hm

theorem ancChain_subset {messages : List Message} {m : Message} {c : List Message}
    (h : AncChain messages m c) : ∀ x ∈ c, x ∈ messages := by
  induction h with
  | root m hm _ =>
    intro x hx
    rcases List.mem_cons.mp hx with h1 | h2
    · subst h1; exact hm
    · exact absurd h2 (List.not_mem_nil x)
  | step pm m chain hc hm hp ih =>
    intro x hx
    rcases List.mem_append.mp hx with h1 | h2
    · exact ih x h1
    · rcases List.mem_cons.mp h2 with g1 | g2
      · subst g1; exact hm
      · exact absurd g2 (List.not_mem_nil x)

theorem ancChain_unique {messages : List Message} (hnd : NodupIds messages) :
    ∀ {m : Message} {c1 : List Message}, AncChain messages m c1 →
      ∀ {c2 : List Message}, AncChain messages m c2 → c1 = c2 := by
  intro m c1 h1
  induction h1 with
  | root m hm hp =>
    intro c2 h2
    cases h2 with
    | root _ _ _ => rfl
    | step pm _ chain hc hm2 hp2 => rw [hp] at hp2; exact absurd hp2 (by simp)
  | step pm m chain hc hm hp ih =>
    intro c2 h2
    cases h2 with
    | root _ _ hp2 => rw [hp] at hp2; exact absurd hp2 (by simp)
    | step pm2 _ chain2 hc2 hm2 hp2 =>
      rw [hp] at hp2
      have hid : pm2.id = pm.id := by
        injection hp2 with hh; exact hh.symm
      have : pm2 = pm :=
        nodupIds_inj hnd pm2 (ancChain_mem_self hc2) pm (ancChain_mem_self hc) hid
      subst this
      rw [ih hc2]

theorem ancChain_split {messages : List Message} {m : Message} {c : List Message}
    (h : AncChain messages m c) :
    ∀ x ∈ c, ∃ cx r, AncChain messages x cx ∧ c = cx ++ r := by
  induction h with
  | root m hm hp =>
    intro x hx
    rcases List.mem_cons.mp hx with h1 | h2
    · subst h1; exact ⟨[x], [], AncChain.root x hm hp, rfl⟩
    · exact absurd h2 (List.not_mem_nil x)
  | step pm m chain hc hm hp ih =>
    intro x hx
    rcases List.mem_append.mp hx with h1 | h2
    · obtain ⟨cx, r, hcx, heq⟩ := ih x h1
      exact ⟨cx, r ++ [m], hcx, by rw [heq, List.append_assoc]⟩
    · rcases List.mem_cons.mp h2 with g1 | g2
      · subst g1
        exact ⟨chain ++ [x], [], AncChain.step pm x chain hc hm hp, by simp⟩
      · exact absurd g2 (List.not_mem_nil x)

theorem ancChain_nodup {messages : List Message} (hnd : NodupIds messages)
    {m : Message} {c : List Message} (h : AncChain messages m c) : c.Nodup := by
  induction h with
  | root m _ _ => simp
  | step pm m chain hc hm hp ih =>
    have hnotmem : m ∉ chain := by
      intro hmem
      obtain ⟨cx, r, hcx, heq⟩ := ancChain_split hc m hmem
      have hwhole : AncChain messages m (chain ++ [m]) :=
        AncChain.step pm m chain hc hm hp
      have hu := ancChain_unique hnd hcx hwhole
      have hlen : chain.length = cx.length + r.length := by
        rw [heq]; simp
      rw [hu] at hlen
      simp at hlen
      omega
    simp [List.nodup_append, ih, hnotmem]

theorem ancChain_length_le {messages : List Message} (hnd : NodupIds messages)
    {m : Message} {c : List Message} (h : AncChain messages m c) :
    c.length ≤ messages.length :=
  (List.subperm_of_subset (ancChain_nodup hnd h)
    (fun x hx => ancChain_subset h x hx)).length_le

theorem walkBack_eval {messages : List Message} (hnd : NodupIds messages) :
    ∀ {m : Message} {chain : List Message}, AncChain messages m chain →
      ∀ fuel, chain.length ≤ fuel + 1 → walkBackAux messages fuel m = chain := by
  intro m chain h
  induction h with
  | root m hm hp =>
    intro fuel _
    cases fuel with
    | zero => rfl
    | succ f => simp [walkBackAux, hp]
  | step pm m c0 hc hm hp ih =>
    intro fuel hlen
    have hc0 : c0 ≠ [] := ancChain_ne_nil hc
    have hc0len : 1 ≤ c0.length := by
      cases c0 with
      | nil => exact absurd rfl hc0
      | cons _ _ => simp
    have hlen' : c0.length ≤ fuel := by
      simp at hlen; omega
    cases fuel with
    | zero => omega
    | succ f =>
      have hpm : lookupById messages pm.id = some pm :=
        lookupById_self hnd pm (ancChain_mem_self hc)
      simp only [walkBackAux, hp, hpm]
      rw [ih f (by omega)]

/-- C3: for a message list with unique ids containing a target whose
ancestor chain is fully present (each `parentMessageId` resolves,
terminating at null), `buildConversationPath` returns exactly that chain,
root first / target last. -/
theorem c3_conversationPath_returns_ancestor_chain (messages : List Message)
    (target : Message) (chain : List Message)
    (hnodup : NodupIds messages) (hchain : AncChain messages target chain) :
    buildConversationPath messages target.id = chain := by
  unfold buildConversationPath
  rw [lookupById_self hnodup target (ancChain_mem_self hchain)]
  exact walkBack_eval hnodup hchain messages.length
    (Nat.le_succ_of_le (ancChain_length_le hnodup hchain))

theorem c3_witness :
    buildConversationPath [exU1, exA1, exU2] exU2.id = [exU1, exA1, exU2] :=
  c3_conversationPath_returns_ancestor_chain [exU1, exA1, exU2] exU2 [exU1, exA1, exU2]
    (by unfold NodupIds; decide)
    (AncChain.step exA1 exU2 [exU1, exA1]
      (AncChain.step exU1 exA1 [exU1]
        (AncChain.root exU1 (by decide) rfl)
        (by decide) rfl)
      (by decide) rfl)

theorem filter_length_mono {p q : Message → Bool}
    (himp : ∀ x, p x = true → q x = true) :
    ∀ (l : List Message), (l.filter p).length ≤ (l.filter q).length := by
  intro l
  induction l with
  | nil => simp
  | cons a t ih =>
    cases hp : p a with
    | true =>
      have hq := himp a hp
      simp only [List.filter_cons, hp, hq, if_true, List.length_cons]
      omega
    | false =>
      cases hq : q a with
      | true =>
        simp only [List.filter_cons, hp, hq, Bool.false_eq_true, if_false, if_true,
          List.length_cons]
        omega
      | false =>
        simp only [List.filter_cons, hp, hq, Bool.false_eq_true, if_false]
        exact ih

theorem filter_length_lt {p q : Message → Bool}
    (himp : ∀ x, p x = true → q x = true) :
    ∀ (l : List Message) (y : Message), y ∈ l → q y = true → p y = false →
      (l.filter p).length < (l.filter q).length := by
  intro l
  induction l with
  | nil => intro y hy; exact absurd hy (List.not_mem_nil y)
  | cons a t ih =>
    intro y hy hqy hpy
    rcases List.mem_cons.mp hy with h1 | h2
    · subst h1
      simp only [List.filter_cons, hpy, hqy, Bool.false_eq_true, if_false, if_true,
        List.length_cons]
      exact Nat.lt_succ_of_le (filter_length_mono himp t)
    · cases hp : p a with
      | true =>
        have hq := himp a hp
        simp only [List.filter_cons, hp, hq, if_true, List.length_cons]
        exact Nat.succ_lt_succ (ih y h2 hqy hpy)
      | false =>
        cases hq : q a with
        | true =>
          simp only [List.filter_cons, hp, hq, Bool.false_eq_true, if_false, if_true,
            List.length_cons]
          exact Nat.lt_succ_of_lt (ih y h2 hqy hpy)
        | false =>
          simp only [List.filter_cons, hp, hq, Bool.false_eq_true, if_false]
          exact ih y h2 hqy hpy

theorem countEarlier_lt {messages : List Message} {pm m : Message}
    (hmem : pm ∈ messages) (hlt : pm.createdAt < m.createdAt) :
    countEarlier messages pm < countEarlier messages m := by
  unfold countEarlier
  apply filter_length_lt
  · intro x hx
    simp only [decide_eq_true_eq] at hx ⊢
    omega
  · exact hmem
  · simp only [decide_eq_true_eq]
    exact hlt
  · simp

theorem countEarlier_lt_len {messages : List Message} {m : Message}
    (hm : m ∈ messages) : countEarlier messages m < messages.length := by
  unfold countEarlier
  have h := filter_length_lt (p := fun x => decide (x.createdAt < m.createdAt))
    (q := fun _ => true) (fun x _ => rfl) messages m hm rfl (by simp)
  simpa using h

theorem parent_find {messages : List Message} (hv : ValidForest messages)
    {m : Message} (hm : m ∈ messages) {p : Nat}
    (hp : m.parentMessageId = some p) :
    ∃ pm, messages.find? (fun x => x.id == p) = some pm
      ∧ pm ∈ messages ∧ pm.createdAt < m.createdAt
      ∧ countEarlier messages pm < countEarlier messages m := by
  obtain ⟨pm', hpm', hid, hlt⟩ := hv.2 m hm p hp
  cases hf : messages.find? (fun x => x.id == p) with
  | none =>
    rw [List.find?_eq_none] at hf
    exact absurd (by simp [hid]) (hf pm' hpm')
  | some pm =>
    have hpmmem := List.mem_of_find?_eq_some hf
    have hpmid : pm.id = p := by simpa using List.find?_some hf
    have hpe : pm = pm' :=
      nodupIds_inj hv.1 pm hpmmem pm' hpm' (by rw [hpmid, hid])
    refine ⟨pm, rfl, hpmmem, ?_, ?_⟩
    · rw [hpe]; exact hlt
    · exact countEarlier_lt hpmmem (by rw [hpe]; exact hlt)

theorem depthAux_congr {messages : List Message} (hv : ValidForest messages) :
    ∀ (k : Nat) (m : Message), m ∈ messages → countEarlier messages m ≤ k →
      ∀ f1 f2, countEarlier messages m < f1 → countEarlier messages m < f2 →
        depthAux messages f1 m = depthAux messages f2 m := by
  intro k
  induction k with
  | zero =>
    intro m hm hk f1 f2 h1 h2
    cases f1 with
    | zero => omega
    | succ g1 =>
      cases f2 with
      | zero => omega
      | succ g2 =>
        cases hp : m.parentMessageId with
        | none => simp [depthAux, hp]
        | some p =>
          obtain ⟨pm, hf, hpmmem, hlt, hcnt⟩ := parent_find hv hm hp
          omega
  | succ k ih =>
    intro m hm hk f1 f2 h1 h2
    cases f1 with
    | zero => omega
    | succ g1 =>
      cases f2 with
      | zero => omega
      | succ g2 =>
        cases hp : m.parentMessageId with
        | none => simp [depthAux, hp]
        | some p =>
          obtain ⟨pm, hf, hpmmem, hlt, hcnt⟩ := parent_find hv hm hp
          simp only [depthAux, hp, hf]
          rw [ih pm hpmmem (by omega) g1 g2 (by omega) (by omega)]

theorem msgDepth_root {messages : List Message} {m : Message}
    (hp : m.parentMessageId = none) : msgDepth messages m = 1 := by
  unfold msgDepth
  cases h : messages.length with
  | zero => rfl
  | succ L => simp [depthAux, hp]

theorem msgDepth_step {messages : List Message} (hv : ValidForest messages)
    {m : Message} (hm : m ∈ messages) {p : Nat}
    (hp : m.parentMessageId = some p) {pm : Message}
    (hf : messages.find? (fun x => x.id == p) = some pm) :
    msgDepth messages m = msgDepth messages pm + 1 := by
  obtain ⟨pm2, hf2, hpmmem, hlt, hcnt⟩ := parent_find hv hm hp
  rw [hf] at hf2
  injection hf2 with hpe
  subst hpe
  have hcm : countEarlier messages m < messages.length := countEarlier_lt_len hm
  obtain ⟨L, hL⟩ : ∃ L, messages.length = L + 1 := ⟨messages.length - 1, by omega⟩
  unfold msgDepth
  rw [hL]
  simp only [depthAux, hp, hf]
  congr 1
  exact depthAux_congr hv (countEarlier messages pm) pm hpmmem le_rfl L (L + 1)
    (by omega) (by omega)

theorem msgDepth_le {messages : List Message} (hv : ValidForest messages) :
    ∀ (k : Nat) (m : Message), m ∈ messages → countEarlier messages m ≤ k →
      msgDepth messages m ≤ countEarlier messages m + 1 := by
  intro k
  induction k with
  | zero =>
    intro m hm hk
    cases hp : m.parentMessageId with
    | none => rw [msgDepth_root hp]; omega
    | some p =>
      obtain ⟨pm, hf, hpmmem, hlt, hcnt⟩ := parent_find hv hm hp
      omega
  | succ k ih =>
    intro m hm hk
    cases hp : m.parentMessageId with
    | none => rw [msgDepth_root hp]; omega
    | some p =>
      obtain ⟨pm, hf, hpmmem, hlt, hcnt⟩ := parent_find hv hm hp
      have hstep := msgDepth_step hv hm hp hf
      have hpm := ih pm hpmmem (by omega)
      omega

theorem foldr_max_le (f : Message → Nat) :
    ∀ (l : List Message) (m : Message), m ∈ l →
      f m ≤ l.foldr (fun x acc => max (f x) acc) 0 := by
  intro l
  induction l with
  | nil => intro m hm; exact absurd hm (List.not_mem_nil m)
  | cons a t ih =>
    intro m hm
    rcases List.mem_cons.mp hm with h1 | h2
    · subst h1
      simp only [List.foldr_cons]
      exact Nat.le_max_left _ _
    · simp only [List.foldr_cons]
      exact Nat.le_trans (ih m h2) (Nat.le_max_right _ _)

theorem le_maxDepth {messages : List Message} {m : Message} (hm : m ∈ messages) :
    msgDepth messages m ≤ maxDepth messages := by
  unfold maxDepth
  exact foldr_max_le (msgDepth messages) messages m hm

theorem child_depth {messages : List Message} (hv : ValidForest messages)
    {key : Int} {d : Nat}
    (hkd : key = ROOT_PARENT_KEY ∧ d = 0
      ∨ ∃ mk ∈ messages, key = (mk.id : Int) ∧ msgDepth messages mk = d)
    {x : Message} (hx : x ∈ buildMessageTree messages false key) :
    x ∈ messages ∧ msgDepth messages x = d + 1 := by
  obtain ⟨hxmem, _, hxpar⟩ := buildMessageTree_mem hx
  refine ⟨hxmem, ?_⟩
  rcases hkd with ⟨hkey, hd⟩ | ⟨mk, hmk, hkey, hd⟩
  · subst hd
    cases hcp : x.parentMessageId with
    | none => rw [msgDepth_root hcp]
    | some p =>
      exfalso
      rw [hcp, hkey] at hxpar
      simp only [normalizeParentId, ROOT_PARENT_KEY] at hxpar
      omega
  · cases hcp : x.parentMessageId with
    | none =>
      exfalso
      rw [hcp, hkey] at hxpar
      simp only [normalizeParentId, ROOT_PARENT_KEY] at hxpar
      omega
    | some p =>
      rw [hcp, hkey] at hxpar
      simp only [normalizeParentId] at hxpar
      have hpmk : p = mk.id := by exact_mod_cast hxpar
      rw [hpmk] at hcp
      rw [msgDepth_step hv hxmem hcp (find?_id_self hv.1 mk hmk), hd]

theorem depthSeq_mem {messages : List Message} :
    ∀ {d : Nat} {l : List Message}, DepthSeq messages d l →
      ∀ y ∈ l, y ∈ messages ∧ d + 1 ≤ msgDepth messages y := by
  intro d l
  induction l generalizing d with
  | nil => intro _ y hy; exact absurd hy (List.not_mem_nil y)
  | cons x xs ih =>
    intro hds y hy
    obtain ⟨hx, hdx, hrest⟩ := hds
    rcases List.mem_cons.mp hy with h1 | h2
    · subst h1; exact ⟨hx, by omega⟩
    · obtain ⟨hm, hd2⟩ := ih hrest y h2
      exact ⟨hm, by omega⟩

theorem depthSeq_nodup {messages : List Message} (hnd : NodupIds messages) :
    ∀ {d : Nat} {l : List Message}, DepthSeq messages d l →
      (l.map (fun m => m.id)).Nodup := by
  intro d l
  induction l generalizing d with
  | nil => intro _; simp
  | cons x xs ih =>
    intro hds
    obtain ⟨hx, hdx, hrest⟩ := hds
    simp only [List.map_cons, List.nodup_cons]
    refine ⟨?_, ih hrest⟩
    intro hmem
    obtain ⟨y, hy, hid⟩ := List.mem_map.mp hmem
    obtain ⟨hymem, hyd⟩ := depthSeq_mem hrest y hy
    have hyx : y = x := nodupIds_inj hnd y hymem x hx hid
    subst hyx
    omega

theorem depthSeq_last {messages : List Message} :
    ∀ {d : Nat} {l : List Message}, DepthSeq messages d l → l ≠ [] →
      ∃ last ∈ messages, msgDepth messages last = d + l.length := by
  intro d l
  induction l generalizing d with
  | nil => intro _ h; exact absurd rfl h
  | cons x xs ih =>
    intro hds _
    obtain ⟨hx, hdx, hrest⟩ := hds
    by_cases hxs : xs = []
    · subst hxs
      exact ⟨x, hx, by simpa using hdx⟩
    · obtain ⟨last, hlm, hld⟩ := ih hrest hxs
      refine ⟨last, hlm, ?_⟩
      rw [List.length_cons]
      omega

theorem activeAux_depthSeq {messages : List Message} (hv : ValidForest messages)
    (sel : BranchSelection) :
    ∀ (fuel : Nat) (key : Int) (d : Nat),
      (key = ROOT_PARENT_KEY ∧ d = 0
        ∨ ∃ mk ∈ messages, key = (mk.id : Int) ∧ msgDepth messages mk = d) →
      DepthSeq messages d (getActivePathAux messages sel fuel key) := by
  intro fuel
  induction fuel with
  | zero =>
    intro key d _
    simp [getActivePathAux, DepthSeq]
  | succ f ih =>
    intro key d hkd
    cases hch : buildMessageTree messages false key with
    | nil => simp [getActivePathAux, hch, DepthSeq]
    | cons c cs =>
      have hcm : selectChild (sel key) c cs ∈ buildMessageTree messages false key := by
        rw [hch]; exact selectChild_mem _ c cs
      obtain ⟨hmem, hdep⟩ := child_depth hv hkd hcm
      simp only [getActivePathAux, hch]
      exact ⟨hmem, hdep,
        ih _ (d + 1) (Or.inr ⟨selectChild (sel key) c cs, hmem, rfl, hdep⟩)⟩

theorem activeAux_fuel_congr {messages : List Message} (hv : ValidForest messages)
    (sel : BranchSelection) :
    ∀ (n : Nat) (key : Int) (d : Nat),
      messages.length - d ≤ n →
      (key = ROOT_PARENT_KEY ∧ d = 0
        ∨ ∃ mk ∈ messages, key = (mk.id : Int) ∧ msgDepth messages mk = d) →
      ∀ f1 f2, n ≤ f1 → n ≤ f2 →
        getActivePathAux messages sel f1 key = getActivePathAux messages sel f2 key := by
  intro n
  induction n with
  | zero =>
    intro key d hn hkd f1 f2 _ _
    cases hch : buildMessageTree messages false key with
    | nil => cases f1 <;> cases f2 <;> simp [getActivePathAux, hch]
    | cons c cs =>
      exfalso
      have hcm : selectChild (sel key) c cs ∈ buildMessageTree messages false key := by
        rw [hch]; exact selectChild_mem _ c cs
      obtain ⟨hmem, hdep⟩ := child_depth hv hkd hcm
      have h1 := msgDepth_le hv (countEarlier messages (selectChild (sel key) c cs))
        _ hmem le_rfl
      have h2 := countEarlier_lt_len hmem
      omega
  | succ k ih =>
    intro key d hn hkd f1 f2 hf1 hf2
    cases f1 with
    | zero => omega
    | succ g1 =>
      cases f2 with
      | zero => omega
      | succ g2 =>
        cases hch : buildMessageTree messages false key with
        | nil => simp [getActivePathAux, hch]
        | cons c cs =>
          have hcm : selectChild (sel key) c cs ∈ buildMessageTree messages false key := by
            rw [hch]; exact selectChild_mem _ c cs
          obtain ⟨hmem, hdep⟩ := child_depth hv hkd hcm
          simp only [getActivePathAux, hch]
          congr 1
          exact ih _ (d + 1) (by omega)
            (Or.inr ⟨selectChild (sel key) c cs, hmem, rfl, hdep⟩) g1 g2
            (by omega) (by omega)

theorem validForest_of_parts {messages : List Message}
    (h1 : NodupIds messages)
    (h2 : messages.all (fun m =>
      match m.parentMessageId with
      | none => true
      | some p =>
          messages.any (fun pm => pm.id == p && pm.createdAt < m.createdAt)) = true) :
    ValidForest messages := by
  refine ⟨h1, ?_⟩
  intro m hm p hp
  have hall := List.all_eq_true.mp h2 m hm
  rw [hp] at hall
  obtain ⟨pm, hpm, hcond⟩ := List.any_eq_true.mp hall
  simp only [Bool.and_eq_true, beq_iff_eq, decide_eq_true_eq] at hcond
  exact ⟨pm, hpm, hcond.1, hcond.2⟩

/-- C8: under the data-model invariant (unique ids, every parent created
strictly earlier), `getActivePath` is stable in its fuel — any bound of at
least `messages.length` steps gives the same path, i.e. the walk is a total
function of the forest — and its path repeats no message id and is no
longer than the forest's maximum depth. -/
theorem c8_activePath_terminating_nodup_bounded (messages : List Message)
    (sel : BranchSelection) (hv : ValidForest messages) :
    (∀ f1 f2, messages.length ≤ f1 → messages.length ≤ f2 →
        getActivePathAux messages sel f1 ROOT_PARENT_KEY
          = getActivePathAux messages sel f2 ROOT_PARENT_KEY)
    ∧ ((getActivePath messages sel).map (fun m => m.id)).Nodup
    ∧ (getActivePath messages sel).length ≤ maxDepth messages := by
  have hds := activeAux_depthSeq hv sel messages.length ROOT_PARENT_KEY 0
    (Or.inl ⟨rfl, rfl⟩)
  refine ⟨?_, ?_, ?_⟩
  · intro f1 f2 hh1 hh2
    exact activeAux_fuel_congr hv sel messages.length ROOT_PARENT_KEY 0 (by omega)
      (Or.inl ⟨rfl, rfl⟩) f1 f2 hh1 hh2
  · exact depthSeq_nodup hv.1 hds
  · show (getActivePathAux messages sel messages.length ROOT_PARENT_KEY).length
        ≤ maxDepth messages
    by_cases hnil :
        getActivePathAux messages sel messages.length ROOT_PARENT_KEY = []
    · rw [hnil]; simp
    · obtain ⟨last, hlm, hld⟩ := depthSeq_last hds hnil
      have hmax := le_maxDepth hlm
      omega

theorem c8_witness :
    ((getActivePath [exC8root, exC8child] (fun _ => none)).map (fun m => m.id)).Nodup
    ∧ (getActivePath [exC8root, exC8child] (fun _ => none)).length
        ≤ maxDepth [exC8root, exC8child] :=
  ⟨(c8_activePath_terminating_nodup_bounded [exC8root, exC8child] (fun _ => none)
      (validForest_of_parts (by unfold NodupIds; decide) (by decide))).2.1,
   (c8_activePath_terminating_nodup_bounded [exC8root, exC8child] (fun _ => none)
      (validForest_of_parts (by unfold NodupIds; decide) (by decide))).2.2⟩
